import Mathlib

/-!
Verification of the usage-metering / tiered-access gate of the unloq backend.

The Python sources embedded here:
* `src/app/auth_system.py` — `AuthSystem.check_rate_limit`,
  `AuthSystem.increment_usage`, `AuthSystem.register_user` over the
  in-memory `users_db` dictionary (email -> user record);
* `src/app/main_monetized.py` — the `ask_question` handler, whose
  rate-check-then-increment sequence realises the spec's
  `check_and_consume`;
* `src/app/llm_manager.py` — `LLMManager.get_llm_for_user`;
* `src/app/fast_chatbot.py` — the TTL cache fragments of
  `FastChatbot.process_query_fast` (`get_cached` / `put_cached` in the
  spec's vocabulary) and `FastChatbot._is_cache_valid`;
* `src/app/security_middleware.py` — `RateLimiter.check_rate_limit`.

Python dictionaries are modelled as association lists in insertion order
(assignment to an existing key keeps its position, a new key is appended),
wall-clock instants (`time.time()` floats) as rationals, and UTC calendar
dates (compared only for equality in the source) as naturals.
-/

namespace Unloq

/-- `d[k]` lookup on a Python dict modelled as an association list. -/
def dictLookup {α : Type} (l : List (String × α)) (k : String) : Option α :=
  match l with
  | [] => none
  | (k', v) :: rest => if k' = k then some v else dictLookup rest k

/-- `d[k] = v` on a Python dict: overwrite in place, or append a new key. -/
def dictInsert {α : Type} (l : List (String × α)) (k : String) (v : α) :
    List (String × α) :=
  match l with
  | [] => [(k, v)]
  | (k', v') :: rest =>
      if k' = k then (k', v) :: rest else (k', v') :: dictInsert rest k v

/-- `del d[k]` on a Python dict. -/
def dictErase {α : Type} (l : List (String × α)) (k : String) :
    List (String × α) :=
  match l with
  | [] => []
  | (k', v') :: rest =>
      if k' = k then dictErase rest k else (k', v') :: dictErase rest k

/-! ## auth_system.py -/

/-- One record of `AuthSystem.users_db` (the fields the metering gate
reads or writes; `usage` is flattened into `dailyCount`/`lastReset`). -/
structure UserRec where
  userId : String
  email : String
  plan : String
  dailyCount : Nat
  lastReset : Nat
deriving DecidableEq, Repr

/-- `users_db`: email -> user record, in insertion order. -/
abbrev UsersDb := List (String × UserRec)

/-- The plan-to-daily-limit table of `check_rate_limit` (lines 199-205):
the `limits` dict built from the env defaults 10/100/1000, queried with
`limits.get(user['plan'], 10)`, so an unknown plan defaults to 10. -/
def limitFor (plan : String) : Nat :=
  if plan = "free" then 10
  else if plan = "pro" then 100
  else if plan = "business" then 1000
  else 10

/-- The reset stage of `check_rate_limit` (lines 192-196): zero the daily
count and stamp today's date exactly when the stored `last_reset` date
differs from today's UTC date. -/
def resetIfNeeded (u : UserRec) (today : Nat) : UserRec :=
  if u.lastReset ≠ today then { u with dailyCount := 0, lastReset := today }
  else u

/-- Result dictionary of `AuthSystem.check_rate_limit`. -/
inductive RateCheckResult where
  | ok (limit used remaining : Nat) (plan : String)
  | denied (limit used : Nat) (plan : String)
  | userNotFound
deriving DecidableEq, Repr

/-- `AuthSystem.check_rate_limit` (lines 188-225): scan `users_db` for the
first record whose `user_id` matches, reset its window if the stored date
is stale, then compare the count with the plan's limit.  Returns the
result dictionary together with the mutated store. -/
def check_rate_limit (db : UsersDb) (uid : String) (today : Nat) :
    RateCheckResult × UsersDb :=
  match db with
  | [] => (.userNotFound, [])
  | (em, u) :: rest =>
      if u.userId = uid then
        let u2 := resetIfNeeded u today
        let limit := limitFor u2.plan
        if limit ≤ u2.dailyCount then
          (.denied limit u2.dailyCount u2.plan, (em, u2) :: rest)
        else
          (.ok limit u2.dailyCount (limit - u2.dailyCount) u2.plan,
            (em, u2) :: rest)
      else
        ((check_rate_limit rest uid today).1,
          (em, u) :: (check_rate_limit rest uid today).2)

/-- `AuthSystem.increment_usage` (lines 227-233): add 1 to the first
matching record's `daily_count` and return True; False when absent. -/
def increment_usage (db : UsersDb) (uid : String) : Bool × UsersDb :=
  match db with
  | [] => (false, [])
  | (em, u) :: rest =>
      if u.userId = uid then
        (true, (em, { u with dailyCount := u.dailyCount + 1 }) :: rest)
      else
        ((increment_usage rest uid).1,
          (em, u) :: (increment_usage rest uid).2)

/-- `AuthSystem.register_user` (lines 68-107), restricted to the store:
reject an existing email, else append a fresh record with plan `free`,
`daily_count` 0 and `last_reset` today; `user_id` is `user_{len+1}`. -/
def register_user (db : UsersDb) (email : String) (today : Nat) :
    Bool × UsersDb :=
  if (dictLookup db email).isSome then (false, db)
  else
    (true, db ++ [(email,
      { userId := "user_" ++ Nat.repr (db.length + 1), email := email,
        plan := "free", dailyCount := 0, lastReset := today })])

/-- The decision `ask_question` (main_monetized.py lines 262-314) surfaces:
429 with the limit and used count when the rate check fails, otherwise the
answer together with `remaining - 1` after `increment_usage` runs. -/
inductive GateDecision where
  | allowed (remaining : Nat)
  | denied (quota used : Nat)
  | error
deriving DecidableEq, Repr

/-- The spec's `check_and_consume`, as realised by `ask_question`:
`check_rate_limit`, then on success `increment_usage`, reporting
`remaining - 1` in the response's usage block. -/
def check_and_consume (db : UsersDb) (uid : String) (today : Nat) :
    GateDecision × UsersDb :=
  match check_rate_limit db uid today with
  | (.ok _ _ remaining _, db1) =>
      (.allowed (remaining - 1), (increment_usage db1 uid).2)
  | (.denied limit used _, db1) => (.denied limit used, db1)
  | (.userNotFound, db1) => (.error, db1)

/-- `n` consecutive gate calls for one identity on one date, collecting
the decisions. -/
def runGate (n : Nat) (db : UsersDb) (uid : String) (today : Nat) :
    List GateDecision × UsersDb :=
  match n with
  | 0 => ([], db)
  | n + 1 =>
      let s := check_and_consume db uid today
      let r := runGate n s.2 uid today
      (s.1 :: r.1, r.2)

/-- A one-user store: `u1`, plan free, fresh counter in today's window. -/
def demoDb : UsersDb :=
  [("u1@example.com",
    { userId := "u1", email := "u1@example.com", plan := "free",
      dailyCount := 0, lastReset := 0 })]

/-- `LLMManager.get_llm_for_user` (llm_manager.py lines 49-54). -/
def get_llm_for_user (user_plan : String) : String :=
  if user_plan = "business" then "claude" else "gemini"

/-! ### Helper lemmas on the auth store -/

lemma limitFor_pos (plan : String) : 0 < limitFor plan := by
  unfold limitFor
  split
  · norm_num
  · split
    · norm_num
    · split <;> norm_num

lemma resetIfNeeded_of_eq {u : UserRec} {today : Nat}
    (h : u.lastReset = today) : resetIfNeeded u today = u := by
  simp [resetIfNeeded, h]

lemma resetIfNeeded_of_ne {u : UserRec} {today : Nat}
    (h : u.lastReset ≠ today) :
    resetIfNeeded u today = { u with dailyCount := 0, lastReset := today } := by
  simp [resetIfNeeded, h]

lemma check_rate_limit_append (pre rest : UsersDb) (uid : String) (today : Nat)
    (h : ∀ p ∈ pre, p.2.userId ≠ uid) :
    check_rate_limit (pre ++ rest) uid today =
      ((check_rate_limit rest uid today).1,
        pre ++ (check_rate_limit rest uid today).2) := by
  induction pre with
  | nil => simp [check_rate_limit]
  | cons hd tl ih =>
      obtain ⟨em, u⟩ := hd
      have hne : u.userId ≠ uid := h (em, u) (List.mem_cons_self _ _)
      have ih' := ih (fun p hp => h p (List.mem_cons_of_mem _ hp))
      simp [check_rate_limit, hne, ih']

lemma increment_usage_append (pre rest : UsersDb) (uid : String)
    (h : ∀ p ∈ pre, p.2.userId ≠ uid) :
    increment_usage (pre ++ rest) uid =
      ((increment_usage rest uid).1, pre ++ (increment_usage rest uid).2) := by
  induction pre with
  | nil => simp [increment_usage]
  | cons hd tl ih =>
      obtain ⟨em, u⟩ := hd
      have hne : u.userId ≠ uid := h (em, u) (List.mem_cons_self _ _)
      have ih' := ih (fun p hp => h p (List.mem_cons_of_mem _ hp))
      simp [increment_usage, hne, ih']

lemma check_rate_limit_not_found (db : UsersDb) (uid : String) (today : Nat)
    (h : ∀ p ∈ db, p.2.userId ≠ uid) :
    check_rate_limit db uid today = (.userNotFound, db) := by
  have := check_rate_limit_append db [] uid today h
  simpa [check_rate_limit] using this

lemma increment_usage_not_found (db : UsersDb) (uid : String)
    (h : ∀ p ∈ db, p.2.userId ≠ uid) :
    increment_usage db uid = (false, db) := by
  have := increment_usage_append db [] uid h
  simpa [increment_usage] using this

/-- The user of `demoDb`. -/
def demoUser : UserRec :=
  { userId := "u1", email := "u1@example.com", plan := "free",
    dailyCount := 0, lastReset := 0 }

/-- A store whose single user carries an unrecognised plan string. -/
def oddPlanDb : UsersDb :=
  [("e2", { userId := "u2", email := "e2", plan := "enterprise",
            dailyCount := 0, lastReset := 0 })]

/-- A free-plan user whose count already equals the free limit. -/
def overUser : UserRec :=
  { userId := "u9", email := "e1", plan := "free",
    dailyCount := 10, lastReset := 0 }

/-- C1: for a registered identity whose counter is in the current window
(stored `last_reset` = today), the gate allows with
`remaining = quota - (count + 1)` and increments the count while
`count < quota`, and denies with the quota and the used count when
`count ≥ quota`; concretely, with quota 10 eleven calls yield Allowed
9,8,...,0 and then Denied{quota=10, used=10}. -/
theorem quota_gate_consume (pre post : UsersDb) (em : String) (u : UserRec)
    (uid : String) (today : Nat)
    (hpre : ∀ p ∈ pre, p.2.userId ≠ uid) (hid : u.userId = uid)
    (hwin : u.lastReset = today) :
    (u.dailyCount < limitFor u.plan →
      check_and_consume (pre ++ (em, u) :: post) uid today =
        (.allowed (limitFor u.plan - (u.dailyCount + 1)),
          pre ++ (em, { u with dailyCount := u.dailyCount + 1 }) :: post)) ∧
    (limitFor u.plan ≤ u.dailyCount →
      check_and_consume (pre ++ (em, u) :: post) uid today =
        (.denied (limitFor u.plan) u.dailyCount, pre ++ (em, u) :: post)) ∧
    (runGate 11 demoDb "u1" 0).1 =
      [.allowed 9, .allowed 8, .allowed 7, .allowed 6, .allowed 5, .allowed 4,
       .allowed 3, .allowed 2, .allowed 1, .allowed 0, .denied 10 10] := by
  have happ := check_rate_limit_append pre ((em, u) :: post) uid today hpre
  refine ⟨?_, ?_, by decide⟩
  · intro hlt
    have hhead : check_rate_limit ((em, u) :: post) uid today =
        (.ok (limitFor u.plan) u.dailyCount
          (limitFor u.plan - u.dailyCount) u.plan, (em, u) :: post) := by
      simp [check_rate_limit, hid, resetIfNeeded_of_eq hwin,
        Nat.not_le.mpr hlt]
    have hinc := increment_usage_append pre ((em, u) :: post) uid hpre
    have hinchead : increment_usage ((em, u) :: post) uid =
        (true, (em, { u with dailyCount := u.dailyCount + 1 }) :: post) := by
      simp [increment_usage, hid]
    rw [check_and_consume, happ, hhead]
    simp [hinc, hinchead, Nat.sub_sub]
  · intro hge
    have hhead : check_rate_limit ((em, u) :: post) uid today =
        (.denied (limitFor u.plan) u.dailyCount u.plan, (em, u) :: post) := by
      simp [check_rate_limit, hid, resetIfNeeded_of_eq hwin, hge]
    rw [check_and_consume, happ, hhead]

/-- C1 witness: the fresh free user `u1` is allowed with remaining 9 and
the stored count becomes 1. -/
theorem quota_gate_consume_witness :
    check_and_consume demoDb "u1" 0 =
      (.allowed 9, [("u1@example.com", { demoUser with dailyCount := 1 })]) := by
  have h := (quota_gate_consume [] [] "u1@example.com" demoUser "u1" 0
    (by simp) rfl rfl).1 (by norm_num [demoUser, limitFor])
  simpa [demoDb, demoUser, limitFor] using h

/-- C2: when the stored `last_reset` date differs from today's date, the
next gate call zeroes the count, stamps today as the window start, and
returns Allowed with `remaining = quota - 1` (the stored count afterwards
being 1). -/
theorem window_reset_gate (pre post : UsersDb) (em : String) (u : UserRec)
    (uid : String) (today : Nat)
    (hpre : ∀ p ∈ pre, p.2.userId ≠ uid) (hid : u.userId = uid)
    (hstale : u.lastReset ≠ today) :
    check_rate_limit (pre ++ (em, u) :: post) uid today =
      (.ok (limitFor u.plan) 0 (limitFor u.plan) u.plan,
        pre ++ (em, { u with dailyCount := 0, lastReset := today }) :: post) ∧
    check_and_consume (pre ++ (em, u) :: post) uid today =
      (.allowed (limitFor u.plan - 1),
        pre ++ (em, { u with dailyCount := 1, lastReset := today }) :: post) := by
  have happ := check_rate_limit_append pre ((em, u) :: post) uid today hpre
  have hhead : check_rate_limit ((em, u) :: post) uid today =
      (.ok (limitFor u.plan) 0 (limitFor u.plan) u.plan,
        (em, { u with dailyCount := 0, lastReset := today }) :: post) := by
    simp [check_rate_limit, hid, resetIfNeeded_of_ne hstale,
      Nat.not_le.mpr (limitFor_pos u.plan)]
  constructor
  · rw [happ, hhead]
  · have hinc := increment_usage_append pre
      ((em, { u with dailyCount := 0, lastReset := today }) :: post) uid hpre
    have hinchead :
        increment_usage
          ((em, { u with dailyCount := 0, lastReset := today }) :: post) uid =
        (true, (em, { u with dailyCount := 1, lastReset := today }) :: post) := by
      simp [increment_usage, hid]
    rw [check_and_consume, happ, hhead]
    simp [hinc, hinchead]

/-- C2 witness: `u1` last reset on day 0, called on day 3: the counter is
reset and the call is allowed with remaining 9. -/
theorem window_reset_gate_witness :
    check_and_consume demoDb "u1" 3 =
      (.allowed 9, [("u1@example.com",
        { demoUser with dailyCount := 1, lastReset := 3 })]) := by
  have h := (window_reset_gate [] [] "u1@example.com" demoUser "u1" 3
    (by simp) rfl (by norm_num [demoUser])).2
  simpa [demoDb, demoUser, limitFor] using h

/-- C3 counterexample: a user whose plan string `enterprise` is
unrecognised is not rejected with any error: the gate allows the call
(limit defaulted to 10) and the backend selector returns `gemini`. -/
theorem unknown_plan_no_error_cex :
    check_and_consume oddPlanDb "u2" 0 =
      (.allowed 9,
        [("e2",
          { userId := "u2", email := "e2", plan := "enterprise",
            dailyCount := 1, lastReset := 0 })]) ∧
    get_llm_for_user "enterprise" = "gemini" ∧
    (check_and_consume oddPlanDb "u2" 0).1 ≠ .error := by decide

/-- C3 amended: an unrecognised plan tier raises no error anywhere:
`check_rate_limit` defaults its daily limit to 10 (`limits.get(plan, 10)`)
and `get_llm_for_user` routes every non-business plan — recognised or
not — to `gemini`. -/
theorem unknown_plan_defaults (plan : String)
    (h1 : plan ≠ "free") (h2 : plan ≠ "pro") (h3 : plan ≠ "business") :
    limitFor plan = 10 ∧ get_llm_for_user plan = "gemini" := by
  simp [limitFor, get_llm_for_user, h1, h2, h3]

/-- C3 amended witness, at the concrete plan string `enterprise`. -/
theorem unknown_plan_defaults_witness :
    limitFor "enterprise" = 10 ∧ get_llm_for_user "enterprise" = "gemini" :=
  unknown_plan_defaults "enterprise" (by decide) (by decide) (by decide)

/-- C6: the counter resets exactly once per observed window-boundary
crossing: a gate call zeroes the count iff the stored date differs from
today (however many days elapsed), the stored date is always stamped to
today afterwards (so a second same-day reset is impossible —
`resetIfNeeded` is idempotent), and `check_rate_limit` stores exactly the
reset record for the matched user. -/
theorem reset_once_per_boundary (u : UserRec) (em uid : String)
    (rest : UsersDb) (d : Nat) (hid : u.userId = uid) :
    (resetIfNeeded u d).dailyCount =
      (if u.lastReset = d then u.dailyCount else 0) ∧
    (resetIfNeeded u d).lastReset = d ∧
    resetIfNeeded (resetIfNeeded u d) d = resetIfNeeded u d ∧
    (check_rate_limit ((em, u) :: rest) uid d).2 =
      (em, resetIfNeeded u d) :: rest := by
  refine ⟨?_, ?_, ?_, ?_⟩
  · by_cases h : u.lastReset = d <;> simp [resetIfNeeded, h]
  · by_cases h : u.lastReset = d <;> simp [resetIfNeeded, h]
  · by_cases h : u.lastReset = d <;> simp [resetIfNeeded, h]
  · simp only [check_rate_limit, hid, if_true]
    split <;> rfl

/-- C6 witness: `u1` (window of day 0) called on day 4. -/
theorem reset_once_per_boundary_witness :
    (resetIfNeeded demoUser 4).dailyCount =
      (if demoUser.lastReset = 4 then demoUser.dailyCount else 0) ∧
    (resetIfNeeded demoUser 4).lastReset = 4 ∧
    resetIfNeeded (resetIfNeeded demoUser 4) 4 = resetIfNeeded demoUser 4 ∧
    (check_rate_limit [("u1@example.com", demoUser)] "u1" 4).2 =
      [("u1@example.com", resetIfNeeded demoUser 4)] :=
  reset_once_per_boundary demoUser "u1@example.com" "u1" [] 4 rfl

/-- C7 counterexample: an identity with no stored counter is not served:
the gate returns the `User not found` error, not an Allowed decision. -/
theorem gate_no_autocreate_cex :
    check_and_consume [] "u1" 0 = (.error, []) ∧
    (check_and_consume [] "u1" 0).1 ≠ .allowed (limitFor "free" - 1) := by
  decide

/-- C7 amended: the gate never creates a counter: for an identity absent
from `users_db`, `check_rate_limit` returns the `User not found` failure
and leaves the store unchanged; a counter is created only by
`register_user` (plan `free`, count 0, window stamped today), after which
the identity's first gate call is allowed with remaining quota - 1. -/
theorem gate_requires_registration (db : UsersDb) (uid email : String)
    (d : Nat) (habs : ∀ p ∈ db, p.2.userId ≠ uid)
    (hem : dictLookup db email = none) :
    check_rate_limit db uid d = (.userNotFound, db) ∧
    check_and_consume db uid d = (.error, db) ∧
    register_user db email d =
      (true, db ++ [(email,
        { userId := "user_" ++ Nat.repr (db.length + 1), email := email,
          plan := "free", dailyCount := 0, lastReset := d })]) ∧
    check_and_consume (register_user [] "u1@x" 7).2 "user_1" 7 =
      (.allowed 9,
        [("u1@x",
          { userId := "user_1", email := "u1@x", plan := "free",
            dailyCount := 1, lastReset := 7 })]) := by
  refine ⟨check_rate_limit_not_found db uid d habs, ?_, ?_, by decide⟩
  · rw [check_and_consume, check_rate_limit_not_found db uid d habs]
  · simp [register_user, hem]

/-- C7 amended witness: the empty store. -/
theorem gate_requires_registration_witness :
    check_rate_limit [] "u1" 0 = (.userNotFound, []) ∧
    check_and_consume [] "u1" 0 = (.error, []) ∧
    register_user [] "a@b" 0 =
      (true, [] ++
        [("a@b",
          { userId := "user_" ++ Nat.repr (0 + 1), email := "a@b",
            plan := "free", dailyCount := 0, lastReset := 0 })]) ∧
    check_and_consume (register_user [] "u1@x" 7).2 "user_1" 7 =
      (.allowed 9,
        [("u1@x",
          { userId := "user_1", email := "u1@x", plan := "free",
            dailyCount := 1, lastReset := 7 })]) :=
  gate_requires_registration [] "u1" "a@b" 0 (by simp) rfl

/-- C9: `increment_usage` adds exactly 1 to the first matching user's
`daily_count`, returns True, and touches nothing else (every other field
of the record and every other record are unchanged); for an absent
`user_id` it returns False with the store untouched.  It performs no
quota comparison, so the stored count can exceed the plan's limit. -/
theorem increment_usage_spec (db pre post : UsersDb) (em uid : String)
    (u : UserRec) :
    ((∀ p ∈ db, p.2.userId ≠ uid) → increment_usage db uid = (false, db)) ∧
    ((∀ p ∈ pre, p.2.userId ≠ uid) → u.userId = uid →
      increment_usage (pre ++ (em, u) :: post) uid =
        (true, pre ++ (em, { u with dailyCount := u.dailyCount + 1 }) :: post)) ∧
    ({ u with dailyCount := u.dailyCount + 1 }).userId = u.userId ∧
    ({ u with dailyCount := u.dailyCount + 1 }).email = u.email ∧
    ({ u with dailyCount := u.dailyCount + 1 }).plan = u.plan ∧
    ({ u with dailyCount := u.dailyCount + 1 }).lastReset = u.lastReset ∧
    increment_usage [("e1", overUser)] "u9" =
      (true, [("e1", { overUser with dailyCount := 11 })]) ∧
    limitFor overUser.plan < 11 := by
  refine ⟨increment_usage_not_found db uid, ?_, rfl, rfl, rfl, rfl,
    by decide, by decide⟩
  intro hpre hid
  have happ := increment_usage_append pre ((em, u) :: post) uid hpre
  have hhead : increment_usage ((em, u) :: post) uid =
      (true, (em, { u with dailyCount := u.dailyCount + 1 }) :: post) := by
    simp [increment_usage, hid]
  rw [happ, hhead]

/-! ## fast_chatbot.py — the TTL response cache -/

/-- One entry of `FastChatbot.cache`: the response payload (its `answer`
stands for the whole result dict) plus the `timestamp` stored at
insertion (`time.time()`). -/
structure CacheEntry where
  answer : String
  timestamp : ℚ
deriving DecidableEq, Repr

/-- The cache-relevant state of a `FastChatbot`: the cache dict, the TTL
(`cache_ttl`, 300 s in the source), and the maximum entry count (100 in
the source, line 98). -/
structure ChatState where
  cache : List (String × CacheEntry)
  cacheTtl : ℚ
  cacheMax : Nat
deriving DecidableEq, Repr

/-- A chatbot with an empty cache and the given configuration. -/
def mkChatState (ttl : ℚ) (mx : Nat) : ChatState :=
  { cache := [], cacheTtl := ttl, cacheMax := mx }

/-- `FastChatbot._is_cache_valid` (lines 47-49):
`time.time() - timestamp < self.cache_ttl`. -/
def is_cache_valid (s : ChatState) (timestamp now : ℚ) : Bool :=
  decide (now - timestamp < s.cacheTtl)

/-- The cache-read fragment of `FastChatbot.process_query_fast`
(lines 58-65): return the stored entry when the key is present and the
entry is still valid, nothing otherwise.  The key is the
`user_id:fingerprint` string of `_get_cache_key`. -/
def get_cached (s : ChatState) (key : String) (now : ℚ) : Option CacheEntry :=
  match dictLookup s.cache key with
  | some e => if now - e.timestamp < s.cacheTtl then some e else none
  | none => none

/-- One step of Python's `min(keys, key=lambda k: cache[k]['timestamp'])`:
keep the current best unless the next element is strictly older. -/
def oldestStep (best : String × ℚ) (p : String × CacheEntry) : String × ℚ :=
  if p.2.timestamp < best.2 then (p.1, p.2.timestamp) else best

/-- `min(self.cache.keys(), key=lambda k: self.cache[k]['timestamp'])`
(line 99), together with the minimal timestamp. -/
def oldestEntry (l : List (String × CacheEntry)) : Option (String × ℚ) :=
  match l with
  | [] => none
  | (k, e) :: rest => some (rest.foldl oldestStep (k, e.timestamp))

/-- The cache-write fragment of `FastChatbot.process_query_fast`
(lines 91-100): store the entry under the key with `timestamp = now`,
then, if the cache now holds more than `cacheMax` entries, delete the
key with the oldest timestamp. -/
def put_cached (s : ChatState) (key answer : String) (now : ℚ) : ChatState :=
  let cache1 := dictInsert s.cache key { answer := answer, timestamp := now }
  if s.cacheMax < cache1.length then
    match oldestEntry cache1 with
    | some p => { s with cache := dictErase cache1 p.1 }
    | none => { s with cache := cache1 }
  else { s with cache := cache1 }

/-- A sequence of cache insertions `(key, answer, time)`. -/
def runPuts (s : ChatState) (ops : List (String × String × ℚ)) : ChatState :=
  match ops with
  | [] => s
  | op :: rest => runPuts (put_cached s op.1 op.2.1 op.2.2) rest

/-! ### Association-list lemmas -/

lemma dictLookup_append {α : Type} (l1 l2 : List (String × α)) (j : String) :
    dictLookup (l1 ++ l2) j =
      match dictLookup l1 j with
      | some v => some v
      | none => dictLookup l2 j := by
  induction l1 with
  | nil => simp [dictLookup]
  | cons hd tl ih =>
      by_cases h : hd.1 = j <;> simp [dictLookup, h, ih]

lemma dictLookup_none_iff {α : Type} (l : List (String × α)) (j : String) :
    dictLookup l j = none ↔ j ∉ l.map Prod.fst := by
  induction l with
  | nil => simp [dictLookup]
  | cons hd tl ih =>
      by_cases h : hd.1 = j
      · simp [dictLookup, h]
      · have hstep : dictLookup (hd :: tl) j = dictLookup tl j := by
          simp [dictLookup, h]
        rw [hstep, ih, List.map_cons]
        simp only [List.mem_cons, not_or]
        exact ⟨fun hn => ⟨fun he => h he.symm, hn⟩, fun hp => hp.2⟩

lemma dictLookup_of_mem_nodup {α : Type} {l : List (String × α)}
    {m : String} {e : α} (hnd : (l.map Prod.fst).Nodup) (hm : (m, e) ∈ l) :
    dictLookup l m = some e := by
  induction l with
  | nil => simp at hm
  | cons hd tl ih =>
      rcases List.mem_cons.mp hm with h | h
      · simp [dictLookup, ← h]
      · have hne : hd.1 ≠ m := by
          intro heq
          simp only [List.map_cons, List.nodup_cons] at hnd
          exact hnd.1 (by rw [heq]; exact List.mem_map.mpr ⟨(m, e), h, rfl⟩)
        simp only [List.map_cons, List.nodup_cons] at hnd
        simp [dictLookup, hne, ih hnd.2 h]

lemma dictInsert_of_absent {α : Type} {l : List (String × α)} {k : String}
    (v : α) (h : dictLookup l k = none) :
    dictInsert l k v = l ++ [(k, v)] := by
  induction l with
  | nil => simp [dictInsert]
  | cons hd tl ih =>
      by_cases hk : hd.1 = k
      · simp [dictLookup, hk] at h
      · simp [dictLookup, hk] at h
        simp [dictInsert, hk, ih h]

lemma dictInsert_length_of_present {α : Type} {l : List (String × α)}
    {k : String} (v : α) (h : (dictLookup l k).isSome) :
    (dictInsert l k v).length = l.length := by
  induction l with
  | nil => simp [dictLookup] at h
  | cons hd tl ih =>
      by_cases hk : hd.1 = k
      · simp [dictInsert, hk]
      · simp [dictLookup, hk] at h
        simp [dictInsert, hk, ih h]

lemma dictErase_lookup_self {α : Type} (l : List (String × α)) (k : String) :
    dictLookup (dictErase l k) k = none := by
  induction l with
  | nil => simp [dictErase, dictLookup]
  | cons hd tl ih =>
      by_cases hk : hd.1 = k <;> simp [dictErase, dictLookup, hk, ih]

lemma dictErase_lookup_ne {α : Type} (l : List (String × α)) {k j : String}
    (h : j ≠ k) : dictLookup (dictErase l k) j = dictLookup l j := by
  induction l with
  | nil => simp [dictErase]
  | cons hd tl ih =>
      by_cases hk : hd.1 = k
      · have hne : hd.1 ≠ j := by rw [hk]; exact fun hj => h hj.symm
        simp [dictErase, dictLookup, hk, hne, ih, Ne.symm h]
      · by_cases hj : hd.1 = j <;>
          simp [dictErase, dictLookup, hk, hj, ih, h]

lemma dictErase_length_lt {α : Type} {l : List (String × α)} {k : String}
    (h : k ∈ l.map Prod.fst) : (dictErase l k).length < l.length := by
  induction l with
  | nil => simp at h
  | cons hd tl ih =>
      by_cases hk : hd.1 = k
      · have hle : (dictErase tl k).length ≤ tl.length := by
          clear h ih
          induction tl with
          | nil => simp [dictErase]
          | cons hd2 tl2 ih2 =>
              by_cases hk2 : hd2.1 = k <;>
                simp [dictErase, hk2] <;> omega
        simp only [dictErase, hk, if_true, List.length_cons]
        omega
      · have : k ∈ tl.map Prod.fst := by
          rcases List.mem_map.mp h with ⟨p, hp, hpk⟩
          rcases List.mem_cons.mp hp with h1 | h1
          · exact absurd (h1 ▸ hpk) hk
          · exact List.mem_map.mpr ⟨p, h1, hpk⟩
        simp only [dictErase, hk, if_false, List.length_cons]
        exact Nat.succ_lt_succ (ih this)

lemma dictErase_length_nodup {α : Type} {l : List (String × α)} {k : String}
    (hnd : (l.map Prod.fst).Nodup) (h : k ∈ l.map Prod.fst) :
    (dictErase l k).length = l.length - 1 := by
  induction l with
  | nil => simp at h
  | cons hd tl ih =>
      simp only [List.map_cons, List.nodup_cons] at hnd
      by_cases hk : hd.1 = k
      · have : dictErase tl k = tl := by
          have hkn : k ∉ tl.map Prod.fst := hk ▸ hnd.1
          clear ih h hnd
          induction tl with
          | nil => simp [dictErase]
          | cons hd2 tl2 ih2 =>
              simp only [List.map_cons, List.mem_cons] at hkn
              push_neg at hkn
              simp [dictErase, Ne.symm hkn.1, ih2 hkn.2]
        simp [dictErase, hk, this]
      · have hmem : k ∈ tl.map Prod.fst := by
          rcases List.mem_map.mp h with ⟨p, hp, hpk⟩
          rcases List.mem_cons.mp hp with h1 | h1
          · exact absurd (h1 ▸ hpk) hk
          · exact List.mem_map.mpr ⟨p, h1, hpk⟩
        have htl : tl.length ≥ 1 := by
          cases tl
          · simp at hmem
          · simp
        simp only [dictErase, hk, if_false, List.length_cons, ih hnd.2 hmem]
        omega

lemma dictLookup_insert_self {α : Type} (l : List (String × α)) (k : String)
    (v : α) : dictLookup (dictInsert l k v) k = some v := by
  induction l with
  | nil => simp [dictInsert, dictLookup]
  | cons hd tl ih =>
      by_cases h : hd.1 = k <;> simp [dictInsert, dictLookup, h, ih]

/-! ### The oldest-entry fold -/

lemma foldl_oldestStep_mem (rest : List (String × CacheEntry))
    (b : String × ℚ) :
    rest.foldl oldestStep b = b ∨
      ∃ p ∈ rest, rest.foldl oldestStep b = (p.1, p.2.timestamp) := by
  induction rest generalizing b with
  | nil => exact Or.inl rfl
  | cons hd tl ih =>
      have hstep : (hd :: tl).foldl oldestStep b =
          tl.foldl oldestStep (oldestStep b hd) := rfl
      rcases ih (oldestStep b hd) with h | ⟨p, hp, he⟩
      · by_cases hlt : hd.2.timestamp < b.2
        · refine Or.inr ⟨hd, List.mem_cons_self _ _, ?_⟩
          rw [hstep, h]
          simp [oldestStep, hlt]
        · refine Or.inl ?_
          rw [hstep, h]
          simp [oldestStep, hlt]
      · exact Or.inr ⟨p, List.mem_cons_of_mem _ hp, by rw [hstep, he]⟩

lemma foldl_oldestStep_le (rest : List (String × CacheEntry))
    (b : String × ℚ) :
    (rest.foldl oldestStep b).2 ≤ b.2 ∧
      ∀ p ∈ rest, (rest.foldl oldestStep b).2 ≤ p.2.timestamp := by
  induction rest generalizing b with
  | nil => exact ⟨le_refl _, by simp⟩
  | cons hd tl ih =>
      have h1 : (oldestStep b hd).2 ≤ b.2 := by
        unfold oldestStep; split
        · exact le_of_lt ‹_›
        · exact le_refl _
      have h2 : (oldestStep b hd).2 ≤ hd.2.timestamp := by
        unfold oldestStep; split
        · exact le_refl _
        · exact le_of_not_lt ‹_›
      obtain ⟨ihb, ihall⟩ := ih (oldestStep b hd)
      have hstep : (hd :: tl).foldl oldestStep b =
          tl.foldl oldestStep (oldestStep b hd) := rfl
      rw [hstep]
      refine ⟨le_trans ihb h1, ?_⟩
      intro p hp
      rcases List.mem_cons.mp hp with h | h
      · subst h; exact le_trans ihb h2
      · exact ihall p h

lemma oldestEntry_spec (l : List (String × CacheEntry)) (hne : l ≠ []) :
    ∃ p, oldestEntry l = some p ∧
      (∃ e, (p.1, e) ∈ l ∧ e.timestamp = p.2) ∧
      ∀ q ∈ l, p.2 ≤ q.2.timestamp := by
  match l with
  | [] => exact absurd rfl hne
  | (k, e) :: rest =>
      refine ⟨rest.foldl oldestStep (k, e.timestamp), rfl, ?_, ?_⟩
      · rcases foldl_oldestStep_mem rest (k, e.timestamp) with h | ⟨p, hp, he⟩
        · exact ⟨e, by rw [h]; exact List.mem_cons_self _ _, by rw [h]⟩
        · exact ⟨p.2, by rw [he]; exact List.mem_cons_of_mem _ hp, by rw [he]⟩
      · obtain ⟨hb, hall⟩ := foldl_oldestStep_le rest (k, e.timestamp)
        intro q hq
        rcases List.mem_cons.mp hq with h | h
        · exact h ▸ hb
        · exact hall q h

lemma oldestEntry_append_last (l : List (String × CacheEntry)) (k : String)
    (e : CacheEntry) (hne : l ≠ [])
    (hts : ∀ q ∈ l, q.2.timestamp ≤ e.timestamp) :
    oldestEntry (l ++ [(k, e)]) = oldestEntry l := by
  match l with
  | (k0, e0) :: rest =>
      rw [List.cons_append]
      show some (List.foldl oldestStep (k0, e0.timestamp) (rest ++ [(k, e)])) =
        some (List.foldl oldestStep (k0, e0.timestamp) rest)
      rw [List.foldl_append]
      congr 1
      set b := rest.foldl oldestStep (k0, e0.timestamp) with hb
      have hble : b.2 ≤ e.timestamp := by
        rcases foldl_oldestStep_mem rest (k0, e0.timestamp) with h | ⟨p, hp, he⟩
        · rw [← hb] at h
          rw [h]
          exact hts (k0, e0) (List.mem_cons_self _ _)
        · rw [← hb] at he
          rw [he]
          exact hts p (List.mem_cons_of_mem _ hp)
      show oldestStep b (k, e) = b
      unfold oldestStep
      rw [if_neg (not_lt.mpr hble)]

/-! ### put_cached helpers -/

lemma put_cached_config (s : ChatState) (k a : String) (now : ℚ) :
    (put_cached s k a now).cacheMax = s.cacheMax ∧
    (put_cached s k a now).cacheTtl = s.cacheTtl := by
  unfold put_cached
  by_cases h : s.cacheMax <
      (dictInsert s.cache k { answer := a, timestamp := now }).length
  · simp only [h, if_true]
    cases holdest :
        oldestEntry (dictInsert s.cache k { answer := a, timestamp := now }) <;>
      simp
  · simp [h]

lemma put_cached_length (s : ChatState) (k a : String) (now : ℚ)
    (h : s.cache.length ≤ s.cacheMax) :
    (put_cached s k a now).cache.length ≤ s.cacheMax := by
  by_cases hk : (dictLookup s.cache k).isSome
  · have hlen1 :
        (dictInsert s.cache k { answer := a, timestamp := now }).length =
          s.cache.length :=
      dictInsert_length_of_present _ hk
    have hnc : ¬ s.cacheMax <
        (dictInsert s.cache k { answer := a, timestamp := now }).length := by
      rw [hlen1]; exact not_lt.mpr h
    unfold put_cached
    rw [if_neg hnc]
    rw [hlen1]; exact h
  · have hk' : dictLookup s.cache k = none :=
      Option.not_isSome_iff_eq_none.mp hk
    have hins : dictInsert s.cache k { answer := a, timestamp := now } =
        s.cache ++ [(k, { answer := a, timestamp := now })] :=
      dictInsert_of_absent _ hk'
    by_cases hcap : s.cacheMax <
        (dictInsert s.cache k { answer := a, timestamp := now }).length
    · have hlne :
          dictInsert s.cache k { answer := a, timestamp := now } ≠ [] := by
        rw [hins]; simp
      obtain ⟨p, hold, ⟨e, hmem, _⟩, _⟩ := oldestEntry_spec _ hlne
      have hpk : p.1 ∈
          (dictInsert s.cache k { answer := a, timestamp := now }).map
            Prod.fst :=
        List.mem_map.mpr ⟨(p.1, e), hmem, rfl⟩
      have hput : (put_cached s k a now).cache =
          dictErase (dictInsert s.cache k { answer := a, timestamp := now })
            p.1 := by
        unfold put_cached
        rw [if_pos hcap, hold]
      have hlt := dictErase_length_lt hpk
      rw [hins] at hlt
      simp only [List.length_append, List.length_cons, List.length_nil] at hlt
      rw [hput, hins]
      rw [hins] at *
      omega
    · unfold put_cached
      rw [if_neg hcap]
      exact not_lt.mp hcap

lemma runPuts_length (s : ChatState) (ops : List (String × String × ℚ))
    (h : s.cache.length ≤ s.cacheMax) :
    (runPuts s ops).cache.length ≤ s.cacheMax := by
  induction ops generalizing s with
  | nil => exact h
  | cons op rest ih =>
      have hstep := put_cached_length s op.1 op.2.1 op.2.2 h
      have hcfg := (put_cached_config s op.1 op.2.1 op.2.2).1
      have := ih (put_cached s op.1 op.2.1 op.2.2) (hcfg ▸ hstep)
      rw [hcfg] at this
      exact this

lemma put_cached_evicts_oldest (s : ChatState) (k a : String) (now : ℚ)
    (hk : dictLookup s.cache k = none) (hlen : s.cache.length = s.cacheMax)
    (hpos : 0 < s.cacheMax) (hts : ∀ q ∈ s.cache, q.2.timestamp ≤ now)
    (hnd : (s.cache.map Prod.fst).Nodup) :
    ∃ m em, dictLookup s.cache m = some em ∧
      (∀ q ∈ s.cache, em.timestamp ≤ q.2.timestamp) ∧
      (put_cached s k a now).cache.length = s.cacheMax ∧
      dictLookup (put_cached s k a now).cache k =
        some { answer := a, timestamp := now } ∧
      dictLookup (put_cached s k a now).cache m = none ∧
      ∀ j, j ≠ m → j ≠ k →
        dictLookup (put_cached s k a now).cache j = dictLookup s.cache j := by
  have hins : dictInsert s.cache k { answer := a, timestamp := now } =
      s.cache ++ [(k, { answer := a, timestamp := now })] :=
    dictInsert_of_absent _ hk
  have hlne : s.cache ≠ [] := by
    intro h0
    rw [h0] at hlen
    simp at hlen
    omega
  obtain ⟨p, hold, ⟨e, hmem, hets⟩, hmin⟩ := oldestEntry_spec s.cache hlne
  have hApp : oldestEntry
      (s.cache ++ [(k, { answer := a, timestamp := now })]) = some p := by
    rw [oldestEntry_append_last s.cache k _ hlne (fun q hq => hts q hq)]
    exact hold
  have hcap : s.cacheMax <
      (dictInsert s.cache k { answer := a, timestamp := now }).length := by
    rw [hins]
    simp [hlen]
  have hput : (put_cached s k a now).cache =
      dictErase (s.cache ++ [(k, { answer := a, timestamp := now })]) p.1 := by
    unfold put_cached
    rw [if_pos hcap, hins, hApp]
  have hknot : k ∉ s.cache.map Prod.fst := (dictLookup_none_iff _ _).mp hk
  have hp1mem : p.1 ∈ s.cache.map Prod.fst :=
    List.mem_map.mpr ⟨(p.1, e), hmem, rfl⟩
  have hkp : k ≠ p.1 := fun he => hknot (he ▸ hp1mem)
  refine ⟨p.1, e, dictLookup_of_mem_nodup hnd hmem,
    fun q hq => hets ▸ hmin q hq, ?_, ?_, ?_, ?_⟩
  · rw [hput]
    have hnd1 : ((s.cache ++
        [(k, ({ answer := a, timestamp := now } :
          CacheEntry))]).map Prod.fst).Nodup := by
      rw [List.map_append]
      refine List.Nodup.append hnd (by simp) ?_
      intro x hx hx'
      simp only [List.map_cons, List.map_nil, List.mem_singleton] at hx'
      exact hknot (hx' ▸ hx)
    have hmem1 : p.1 ∈ ((s.cache ++
        [(k, ({ answer := a, timestamp := now } :
          CacheEntry))]).map Prod.fst) := by
      rw [List.map_append]
      exact List.mem_append_left _ hp1mem
    rw [dictErase_length_nodup hnd1 hmem1]
    simp [hlen]
  · rw [hput, dictErase_lookup_ne _ hkp, dictLookup_append, hk]
    simp [dictLookup]
  · rw [hput]
    exact dictErase_lookup_self _ _
  · intro j hjm hjk
    rw [hput, dictErase_lookup_ne _ hjm, dictLookup_append]
    cases h : dictLookup s.cache j with
    | some v => rfl
    | none => simp [dictLookup, Ne.symm hjk]

/-- The spec's cache-eviction scenario: capacity 2, then three distinct
fingerprints of one user inserted at times 1, 2, 3. -/
def cap2Demo : ChatState :=
  put_cached (put_cached (put_cached (mkChatState 300 2) "u:fp1" "r1" 1)
    "u:fp2" "r2" 2) "u:fp3" "r3" 3

/-- A cache with one old entry, used for the round-trip witness. -/
def rtDemo : ChatState :=
  { cache := [("u:q0", { answer := "r0", timestamp := 0 })],
    cacheTtl := 300, cacheMax := 100 }

/-- C4: a `put_cached` never leaves more than `cacheMax` entries (and so
every state reached from an empty cache stays within capacity); an
insertion of a fresh key into a cache exactly at capacity removes exactly
one entry, one holding the minimal stored timestamp, keeps every other
entry and the new one retrievable, and leaves the size at the maximum;
with capacity 2, inserting fp1, fp2, fp3 in order evicts fp1 and leaves
fp2 and fp3 retrievable. -/
theorem cache_capacity_eviction :
    (∀ (s : ChatState) (k a : String) (now : ℚ),
      s.cache.length ≤ s.cacheMax →
      (put_cached s k a now).cache.length ≤ s.cacheMax) ∧
    (∀ (ttl : ℚ) (mx : Nat) (ops : List (String × String × ℚ)),
      (runPuts (mkChatState ttl mx) ops).cache.length ≤ mx) ∧
    (∀ (s : ChatState) (k a : String) (now : ℚ),
      dictLookup s.cache k = none → s.cache.length = s.cacheMax →
      0 < s.cacheMax → (∀ q ∈ s.cache, q.2.timestamp ≤ now) →
      (s.cache.map Prod.fst).Nodup →
      ∃ m em, dictLookup s.cache m = some em ∧
        (∀ q ∈ s.cache, em.timestamp ≤ q.2.timestamp) ∧
        (put_cached s k a now).cache.length = s.cacheMax ∧
        dictLookup (put_cached s k a now).cache k =
          some { answer := a, timestamp := now } ∧
        dictLookup (put_cached s k a now).cache m = none ∧
        ∀ j, j ≠ m → j ≠ k →
          dictLookup (put_cached s k a now).cache j =
            dictLookup s.cache j) ∧
    cap2Demo.cache.length = 2 ∧
    dictLookup cap2Demo.cache "u:fp1" = none ∧
    get_cached cap2Demo "u:fp1" 3 = none ∧
    get_cached cap2Demo "u:fp2" 3 =
      some { answer := "r2", timestamp := 2 } ∧
    get_cached cap2Demo "u:fp3" 3 =
      some { answer := "r3", timestamp := 3 } := by
  have ht : cap2Demo.cacheTtl = 300 := by decide
  have h1 : dictLookup cap2Demo.cache "u:fp1" = none := by decide
  have h2 : dictLookup cap2Demo.cache "u:fp2" =
      some { answer := "r2", timestamp := 2 } := by decide
  have h3 : dictLookup cap2Demo.cache "u:fp3" =
      some { answer := "r3", timestamp := 3 } := by decide
  refine ⟨put_cached_length, ?_, put_cached_evicts_oldest, by decide,
    h1, ?_, ?_, ?_⟩
  · intro ttl mx ops
    exact runPuts_length (mkChatState ttl mx) ops (by simp [mkChatState])
  · unfold get_cached
    rw [h1]
  · unfold get_cached
    rw [h2, ht]
    norm_num
  · unfold get_cached
    rw [h3, ht]
    norm_num

/-- C5: `get_cached` returns the stored entry exactly when the key is
present and its age `now - created_at` is strictly below the TTL, and
returns nothing otherwise; hence it never returns an entry whose age has
reached its TTL.  `_is_cache_valid` is exactly the freshness test. -/
theorem cache_get_iff_fresh (s : ChatState) (key : String) (now ts : ℚ) :
    (∀ e, get_cached s key now = some e ↔
      dictLookup s.cache key = some e ∧ now - e.timestamp < s.cacheTtl) ∧
    (∀ e, get_cached s key now = some e →
      now - e.timestamp < s.cacheTtl) ∧
    (is_cache_valid s ts now = true ↔ now - ts < s.cacheTtl) := by
  have h1 : ∀ e, get_cached s key now = some e ↔
      dictLookup s.cache key = some e ∧ now - e.timestamp < s.cacheTtl := by
    intro e
    unfold get_cached
    cases h : dictLookup s.cache key with
    | none => simp
    | some e' =>
        show (if now - e'.timestamp < s.cacheTtl then some e' else none) =
            some e ↔ some e' = some e ∧ now - e.timestamp < s.cacheTtl
        by_cases hv : now - e'.timestamp < s.cacheTtl
        · rw [if_pos hv]
          constructor
          · intro he
            have he' : e' = e := by injection he
            subst he'
            exact ⟨rfl, hv⟩
          · intro hp
            exact hp.1
        · rw [if_neg hv]
          constructor
          · intro he
            simp at he
          · rintro ⟨hp1, hp2⟩
            have he' : e' = e := by injection hp1
            subst he'
            exact absurd hp2 hv
  exact ⟨h1, fun e he => ((h1 e).mp he).2, by simp [is_cache_valid]⟩

/-- C8: putting an entry and immediately reading the same key back (time
unchanged, so the TTL has not elapsed) yields exactly the stored
response, for any cache state within its capacity bound whose stored
timestamps do not lie in the future. -/
theorem cache_round_trip (s : ChatState) (k a : String) (now : ℚ)
    (hinv : s.cache.length ≤ s.cacheMax) (hpos : 0 < s.cacheMax)
    (httl : 0 < s.cacheTtl) (hts : ∀ q ∈ s.cache, q.2.timestamp ≤ now) :
    get_cached (put_cached s k a now) k now =
      some { answer := a, timestamp := now } := by
  have hcfg := (put_cached_config s k a now).2
  have hfresh : now - now < s.cacheTtl := by simpa using httl
  by_cases hk : (dictLookup s.cache k).isSome
  · have hlen1 :
        (dictInsert s.cache k { answer := a, timestamp := now }).length =
          s.cache.length :=
      dictInsert_length_of_present _ hk
    have hnc : ¬ s.cacheMax <
        (dictInsert s.cache k { answer := a, timestamp := now }).length := by
      rw [hlen1]; exact not_lt.mpr hinv
    have hput : (put_cached s k a now).cache =
        dictInsert s.cache k { answer := a, timestamp := now } := by
      unfold put_cached
      rw [if_neg hnc]
    unfold get_cached
    rw [hcfg, hput, dictLookup_insert_self]
    simpa using httl
  · have hk' : dictLookup s.cache k = none :=
      Option.not_isSome_iff_eq_none.mp hk
    have hins : dictInsert s.cache k { answer := a, timestamp := now } =
        s.cache ++ [(k, { answer := a, timestamp := now })] :=
      dictInsert_of_absent _ hk'
    by_cases hcap : s.cacheMax <
        (dictInsert s.cache k { answer := a, timestamp := now }).length
    · have hlne : s.cache ≠ [] := by
        intro h0
        rw [hins, h0] at hcap
        simp at hcap
        omega
      obtain ⟨p, hold, ⟨e, hmem, _⟩, _⟩ := oldestEntry_spec s.cache hlne
      have hApp : oldestEntry
          (s.cache ++ [(k, { answer := a, timestamp := now })]) = some p := by
        rw [oldestEntry_append_last s.cache k _ hlne (fun q hq => hts q hq)]
        exact hold
      have hput : (put_cached s k a now).cache =
          dictErase (s.cache ++ [(k, { answer := a, timestamp := now })])
            p.1 := by
        unfold put_cached
        rw [if_pos hcap, hins, hApp]
      have hknot : k ∉ s.cache.map Prod.fst :=
        (dictLookup_none_iff _ _).mp hk'
      have hkp : k ≠ p.1 := fun he =>
        hknot (he ▸ List.mem_map.mpr ⟨(p.1, e), hmem, rfl⟩)
      unfold get_cached
      rw [hcfg, hput, dictErase_lookup_ne _ hkp, dictLookup_append, hk']
      simpa [dictLookup] using httl
    · have hput : (put_cached s k a now).cache =
          dictInsert s.cache k { answer := a, timestamp := now } := by
        unfold put_cached
        rw [if_neg hcap]
      unfold get_cached
      rw [hcfg, hput, dictLookup_insert_self]
      simpa using httl

/-- C8 witness: a cache holding one entry from time 0, written and read
back at time 5. -/
theorem cache_round_trip_witness :
    get_cached (put_cached rtDemo "u:q1" "r1" 5) "u:q1" 5 =
      some { answer := "r1", timestamp := 5 } :=
  cache_round_trip rtDemo "u:q1" "r1" 5 (by decide) (by decide)
    (by decide) (by decide)

/-! ## security_middleware.py — the sliding-window RateLimiter -/

/-- The state of `RateLimiter`: the per-minute and per-hour limits and
the two per-client timestamp buckets (`defaultdict(list)`: a missing
client reads as the empty list). -/
structure RLState where
  rpm : Nat
  rph : Nat
  minuteBuckets : List (String × List ℚ)
  hourBuckets : List (String × List ℚ)
deriving DecidableEq, Repr

/-- Read of a `defaultdict(list)` entry. -/
def dget (l : List (String × List ℚ)) (k : String) : List ℚ :=
  (dictLookup l k).getD []

/-- `RateLimiter._clean_old_requests` (lines 34-37): keep the timestamps
with `current_time - t < time_window`. -/
def clean_old_requests (bucket : List ℚ) (now window : ℚ) : List ℚ :=
  bucket.filter (fun t => decide (now - t < window))

/-- A `RateLimiter(requests_per_minute, requests_per_hour)` with empty
buckets (the source's module-level instance uses 60 and 1000). -/
def initRL (rpm rph : Nat) : RLState :=
  { rpm := rpm, rph := rph, minuteBuckets := [], hourBuckets := [] }

/-- `RateLimiter.check_rate_limit` (lines 39-73): store the pruned minute
and hour buckets for the client, deny (HTTP 429) when either pruned
bucket has reached its limit, otherwise record the request's timestamp in
both buckets and allow.  The Bool is the decision (`False` = 429
raised). -/
def rl_check_rate_limit (s : RLState) (client : String) (now : ℚ) :
    Bool × RLState :=
  if s.rpm ≤ (clean_old_requests (dget s.minuteBuckets client) now 60).length
  then
    (false,
      { s with
        minuteBuckets := dictInsert s.minuteBuckets client
          (clean_old_requests (dget s.minuteBuckets client) now 60),
        hourBuckets := dictInsert s.hourBuckets client
          (clean_old_requests (dget s.hourBuckets client) now 3600) })
  else if s.rph ≤
      (clean_old_requests (dget s.hourBuckets client) now 3600).length then
    (false,
      { s with
        minuteBuckets := dictInsert s.minuteBuckets client
          (clean_old_requests (dget s.minuteBuckets client) now 60),
        hourBuckets := dictInsert s.hourBuckets client
          (clean_old_requests (dget s.hourBuckets client) now 3600) })
  else
    (true,
      { s with
        minuteBuckets := dictInsert s.minuteBuckets client
          (clean_old_requests (dget s.minuteBuckets client) now 60 ++ [now]),
        hourBuckets := dictInsert s.hourBuckets client
          (clean_old_requests (dget s.hourBuckets client) now 3600 ++
            [now]) })

/-- A sequence of limiter calls `(client, time)`. -/
def runRL (s : RLState) (calls : List (String × ℚ)) : RLState :=
  match calls with
  | [] => s
  | c :: rest => runRL (rl_check_rate_limit s c.1 c.2).2 rest

/-! ### RateLimiter helper lemmas -/

lemma dictLookup_insert_ne {α : Type} (l : List (String × α)) (k : String)
    (v : α) {j : String} (h : j ≠ k) :
    dictLookup (dictInsert l k v) j = dictLookup l j := by
  induction l with
  | nil => simp [dictInsert, dictLookup, Ne.symm h]
  | cons hd tl ih =>
      by_cases hk : hd.1 = k
      · have hne : hd.1 ≠ j := by rw [hk]; exact Ne.symm h
        simp [dictInsert, dictLookup, hk, hne, Ne.symm h]
      · by_cases hj : hd.1 = j <;>
          simp [dictInsert, dictLookup, hk, hj, ih, h]

lemma dget_insert_self (l : List (String × List ℚ)) (k : String)
    (v : List ℚ) : dget (dictInsert l k v) k = v := by
  simp [dget, dictLookup_insert_self]

lemma dget_insert_ne (l : List (String × List ℚ)) (k : String) (v : List ℚ)
    {j : String} (h : j ≠ k) : dget (dictInsert l k v) j = dget l j := by
  simp [dget, dictLookup_insert_ne l k v h]

lemma rl_config_preserved (s : RLState) (c : String) (now : ℚ) :
    (rl_check_rate_limit s c now).2.rpm = s.rpm ∧
    (rl_check_rate_limit s c now).2.rph = s.rph := by
  unfold rl_check_rate_limit
  split
  · exact ⟨rfl, rfl⟩
  · split
    · exact ⟨rfl, rfl⟩
    · exact ⟨rfl, rfl⟩

lemma rl_minute_bound_step (s : RLState) (c : String) (now : ℚ)
    (h : ∀ c', (dget s.minuteBuckets c').length ≤ s.rpm) (c' : String) :
    (dget (rl_check_rate_limit s c now).2.minuteBuckets c').length ≤
      s.rpm := by
  have hclean : (clean_old_requests (dget s.minuteBuckets c) now 60).length ≤
      (dget s.minuteBuckets c).length := List.length_filter_le _ _
  by_cases hc : c' = c
  · subst hc
    unfold rl_check_rate_limit
    split
    · rw [dget_insert_self]
      exact le_trans hclean (h c')
    · split
      · rw [dget_insert_self]
        exact le_trans hclean (h c')
      · rw [dget_insert_self]
        simp only [List.length_append, List.length_cons, List.length_nil]
        omega
  · unfold rl_check_rate_limit
    split
    · rw [dget_insert_ne _ _ _ hc]
      exact h c'
    · split
      · rw [dget_insert_ne _ _ _ hc]
        exact h c'
      · rw [dget_insert_ne _ _ _ hc]
        exact h c'

lemma runRL_minute_bound (calls : List (String × ℚ)) (s : RLState)
    (h : ∀ c', (dget s.minuteBuckets c').length ≤ s.rpm) (c : String) :
    (dget (runRL s calls).minuteBuckets c).length ≤ s.rpm := by
  induction calls generalizing s with
  | nil => exact h c
  | cons hd tl ih =>
      have hrpm := (rl_config_preserved s hd.1 hd.2).1
      have hstep := rl_minute_bound_step s hd.1 hd.2 h
      have := ih (rl_check_rate_limit s hd.1 hd.2).2
        (fun c' => by rw [hrpm]; exact hstep c')
      rw [hrpm] at this
      exact this

/-- C10: a timestamp is recorded in the client's buckets iff the request
is allowed: a denied (429) call stores exactly the pruned buckets with
nothing appended, an allowed call stores the pruned buckets with the
current time appended, the decision is allowed iff both pruned buckets
are strictly below their limits, other clients' buckets are never
touched, and along any call sequence from a fresh limiter a client's
minute bucket never holds more than `requests_per_minute` timestamps. -/
theorem rate_limiter_records_iff_allowed :
    (∀ (s : RLState) (c : String) (now : ℚ),
      ((rl_check_rate_limit s c now).1 = false →
        dget (rl_check_rate_limit s c now).2.minuteBuckets c =
          clean_old_requests (dget s.minuteBuckets c) now 60 ∧
        dget (rl_check_rate_limit s c now).2.hourBuckets c =
          clean_old_requests (dget s.hourBuckets c) now 3600) ∧
      ((rl_check_rate_limit s c now).1 = true →
        dget (rl_check_rate_limit s c now).2.minuteBuckets c =
          clean_old_requests (dget s.minuteBuckets c) now 60 ++ [now] ∧
        dget (rl_check_rate_limit s c now).2.hourBuckets c =
          clean_old_requests (dget s.hourBuckets c) now 3600 ++ [now]) ∧
      ((rl_check_rate_limit s c now).1 = true ↔
        (clean_old_requests (dget s.minuteBuckets c) now 60).length <
          s.rpm ∧
        (clean_old_requests (dget s.hourBuckets c) now 3600).length <
          s.rph) ∧
      (∀ c', c' ≠ c →
        dget (rl_check_rate_limit s c now).2.minuteBuckets c' =
          dget s.minuteBuckets c' ∧
        dget (rl_check_rate_limit s c now).2.hourBuckets c' =
          dget s.hourBuckets c')) ∧
    (∀ (rpm rph : Nat) (calls : List (String × ℚ)) (c : String),
      (dget (runRL (initRL rpm rph) calls).minuteBuckets c).length ≤
        rpm) := by
  constructor
  · intro s c now
    by_cases h1 : s.rpm ≤
        (clean_old_requests (dget s.minuteBuckets c) now 60).length
    · refine ⟨?_, ?_, ?_, ?_⟩
      · intro _
        unfold rl_check_rate_limit
        rw [if_pos h1]
        exact ⟨dget_insert_self _ _ _, dget_insert_self _ _ _⟩
      · intro habs
        unfold rl_check_rate_limit at habs
        rw [if_pos h1] at habs
        simp at habs
      · constructor
        · intro habs
          unfold rl_check_rate_limit at habs
          rw [if_pos h1] at habs
          simp at habs
        · intro hboth
          exact absurd hboth.1 (not_lt.mpr h1)
      · intro c' hc
        unfold rl_check_rate_limit
        rw [if_pos h1]
        exact ⟨dget_insert_ne _ _ _ hc, dget_insert_ne _ _ _ hc⟩
    · by_cases h2 : s.rph ≤
          (clean_old_requests (dget s.hourBuckets c) now 3600).length
      · refine ⟨?_, ?_, ?_, ?_⟩
        · intro _
          unfold rl_check_rate_limit
          rw [if_neg h1, if_pos h2]
          exact ⟨dget_insert_self _ _ _, dget_insert_self _ _ _⟩
        · intro habs
          unfold rl_check_rate_limit at habs
          rw [if_neg h1, if_pos h2] at habs
          simp at habs
        · constructor
          · intro habs
            unfold rl_check_rate_limit at habs
            rw [if_neg h1, if_pos h2] at habs
            simp at habs
          · intro hboth
            exact absurd hboth.2 (not_lt.mpr h2)
        · intro c' hc
          unfold rl_check_rate_limit
          rw [if_neg h1, if_pos h2]
          exact ⟨dget_insert_ne _ _ _ hc, dget_insert_ne _ _ _ hc⟩
      · refine ⟨?_, ?_, ?_, ?_⟩
        · intro habs
          unfold rl_check_rate_limit at habs
          rw [if_neg h1, if_neg h2] at habs
          simp at habs
        · intro _
          unfold rl_check_rate_limit
          rw [if_neg h1, if_neg h2]
          exact ⟨dget_insert_self _ _ _, dget_insert_self _ _ _⟩
        · constructor
          · intro _
            exact ⟨not_le.mp h1, not_le.mp h2⟩
          · intro _
            unfold rl_check_rate_limit
            rw [if_neg h1, if_neg h2]
        · intro c' hc
          unfold rl_check_rate_limit
          rw [if_neg h1, if_neg h2]
          exact ⟨dget_insert_ne _ _ _ hc, dget_insert_ne _ _ _ hc⟩
  · intro rpm rph calls c
    exact runRL_minute_bound calls (initRL rpm rph)
      (fun c' => by simp [initRL, dget, dictLookup]) c

end Unloq
